import Mathlib

/-!
Shallow embedding of `src/InventoryPro/app.py`, the single source file of the
Inventory_Management repository (a Flask CRUD app over three JSON files), and
proofs about it.  Python strings are modelled as `List Char` (Python compares
and concatenates strings by code point, which `List Char` with its
lexicographic order mirrors exactly).  Python `dict`s are modelled as
insertion-ordered association lists: writing to a present key updates it in
place, writing to an absent key appends it at the end, and iteration follows
that order — exactly CPython's documented dict semantics.  File-backed state
is passed explicitly: a backing file is `Option (List α)` (`none` = no file on
disk), and the JSON text layer is modelled as the identity on record
sequences, which is faithful for the flat string/int records this app stores.
Fallible request handlers become `Option`-valued functions: `none` is the
flash-an-error-and-redirect path, on which the code never calls `save_data`,
so the store is unchanged by construction.
-/

namespace InventoryPro

/-- A Python string: its list of code points. -/
abbrev Str := List Char

/-- Characters removed by Python's `str.strip()` (the ASCII whitespace range
Python strips; `str.strip` also strips some rarer Unicode space characters,
which no claim exercises). -/
def isPySpace (c : Char) : Bool :=
  c = ' ' || c = '\t' || c = '\n' || c = '\r' || c = '\x0b' || c = '\x0c'

/-- Python `s.strip()`: drop leading whitespace, then trailing whitespace
(implemented by reversing, dropping, and reversing back). -/
def pyStrip (s : Str) : Str :=
  (((s.dropWhile isPySpace).reverse.dropWhile isPySpace)).reverse

/-- Python `max(l, default=d)`: `d` only when the list is empty. -/
def pyMax (l : List Int) (d : Int) : Int :=
  match l with
  | [] => d
  | x :: xs => xs.foldl max x

/-- A record of `products.json` (`app.py` lines 56-60). -/
structure Product where
  product_id : Str
  name : Str
  description : Str
deriving DecidableEq

/-- A record of `locations.json` (`app.py` lines 102-106). -/
structure Location where
  location_id : Str
  name : Str
  address : Str
deriving DecidableEq

/-- A record of `movements.json` (`app.py` lines 172-179).  `movement_id` is a
Python int; `from_location`/`to_location` are JSON `null` or a string. -/
structure Movement where
  movement_id : Int
  timestamp : Str
  from_location : Option Str
  to_location : Option Str
  product_id : Str
  qty : Int
deriving DecidableEq

/-- `load_data` (`app.py` 25-29): the parsed contents of the backing file, or
the empty list when no file exists. -/
def load_data (file : Option (List α)) : List α :=
  match file with
  | some records => records
  | none => []

/-- `save_data` (`app.py` 31-33): fully overwrite the backing file with the
given records. -/
def save_data (records : List α) : Option (List α) :=
  some records

/-- POST branch of `add_product` (`app.py` 46-63): strip the three form
fields, refuse a duplicate id (`none`, nothing saved), else append and save. -/
def add_product (products : List Product) (product_id name description : Str) :
    Option (List Product) :=
  let product_id := pyStrip product_id
  let name := pyStrip name
  let description := pyStrip description
  if products.any (fun p => p.product_id == product_id) then none
  else some (products ++
    [{ product_id := product_id, name := name, description := description }])

/-- POST branch of `edit_product` (`app.py` 68-81): find the first record with
the given id (`none` when absent, nothing saved), overwrite its `name` and
`description` in place with the stripped form fields, and save. -/
def edit_product (products : List Product) (product_id name description : Str) :
    Option (List Product) :=
  match products with
  | [] => none
  | p :: ps =>
    if p.product_id == product_id then
      some ({ product_id := p.product_id, name := pyStrip name,
              description := pyStrip description } :: ps)
    else (edit_product ps product_id name description).map (p :: ·)

/-- POST branch of `add_location` (`app.py` 91-109), same shape as
`add_product`. -/
def add_location (locations : List Location) (location_id name address : Str) :
    Option (List Location) :=
  let location_id := pyStrip location_id
  let name := pyStrip name
  let address := pyStrip address
  if locations.any (fun l => l.location_id == location_id) then none
  else some (locations ++
    [{ location_id := location_id, name := name, address := address }])

/-- POST branch of `edit_location` (`app.py` 114-127), same shape as
`edit_product`. -/
def edit_location (locations : List Location) (location_id name address : Str) :
    Option (List Location) :=
  match locations with
  | [] => none
  | l :: ls =>
    if l.location_id == location_id then
      some ({ location_id := l.location_id, name := pyStrip name,
              address := pyStrip address } :: ls)
    else (edit_location ls location_id name address).map (l :: ·)

/-- `movement_id = max([m['movement_id'] for m in movements], default=0) + 1`
(`app.py` 170). -/
def next_movement_id (movements : List Movement) : Int :=
  pyMax (movements.map Movement.movement_id) 0 + 1

/-- POST branch of `add_movement` (`app.py` 153-182): strip the two location
fields, turn empty ones into `None`, refuse when both are `None` (`none`,
nothing saved), else append a record with the next id and save.  `now` is the
wall-clock timestamp string the handler stamps. -/
def add_movement (movements : List Movement) (now : Str)
    (product_id from_location to_location : Str) (qty : Int) :
    Option (List Movement) :=
  let from_location := pyStrip from_location
  let to_location := pyStrip to_location
  let from_loc : Option Str := if from_location = [] then none else some from_location
  let to_loc : Option Str := if to_location = [] then none else some to_location
  if from_loc = none ∧ to_loc = none then none
  else some (movements ++
    [{ movement_id := next_movement_id movements, timestamp := now,
       from_location := from_loc, to_location := to_loc,
       product_id := product_id, qty := qty }])

/-- Python dict read `d.get(k, 0)` on the balance mapping (`app.py` 202, 206):
the value stored at the key, defaulting to `0`. -/
def dictGet (d : List (Str × Int)) (k : Str) : Int :=
  match d with
  | [] => 0
  | e :: es => if e.1 = k then e.2 else dictGet es k

/-- Python dict write `d[k] = v`: update a present key in place, append an
absent key at the end (CPython preserves insertion order). -/
def dictSet (d : List (Str × Int)) (k : Str) (v : Int) : List (Str × Int) :=
  match d with
  | [] => [(k, v)]
  | e :: es => if e.1 = k then (k, v) :: es else e :: dictSet es k v

/-- The composite key `f"{product_id}|{location_id}"` (`app.py` 201, 205). -/
def mkKey (p l : Str) : Str := p ++ '|' :: l

/-- One iteration of the balance loop (`app.py` 194-206): if `from_location`
is truthy (neither `None` nor the empty string) subtract `qty` at its key, and
if `to_location` is truthy add `qty` at its key. -/
def apply_movement (balance : List (Str × Int)) (m : Movement) : List (Str × Int) :=
  let balance :=
    match m.from_location with
    | some l =>
      if l = [] then balance
      else dictSet balance (mkKey m.product_id l) (dictGet balance (mkKey m.product_id l) - m.qty)
    | none => balance
  match m.to_location with
  | some l =>
    if l = [] then balance
    else dictSet balance (mkKey m.product_id l) (dictGet balance (mkKey m.product_id l) + m.qty)
  | none => balance

/-- The whole balance loop: fold the movements, in ledger order, over an
initially empty dict (`app.py` 192-206). -/
def computeBalance (movements : List Movement) : List (Str × Int) :=
  movements.foldl apply_movement []

/-- Python `str.split(sep)` for a one-character separator. -/
def splitOnChar (sep : Char) : Str → List Str
  | [] => [[]]
  | c :: cs =>
    if c = sep then [] :: splitOnChar sep cs
    else
      match splitOnChar sep cs with
      | [] => [[c]]
      | r :: rs => (c :: r) :: rs

/-- Lookup in a Python dict comprehension built from an entry list: with
duplicate keys the comprehension keeps the last binding, hence the reversed
`find?`; `d` is the `.get` default. -/
def pyDictGetD (entries : List (Str × Str)) (k d : Str) : Str :=
  match entries.reverse.find? (fun e => e.1 == k) with
  | some e => e.2
  | none => d

/-- `{p['product_id']: p['name'] for p in products}` (`app.py` 208). -/
def product_dict (products : List Product) : List (Str × Str) :=
  products.map (fun p => (p.product_id, p.name))

/-- `{l['location_id']: l['name'] for l in locations}` (`app.py` 209). -/
def location_dict (locations : List Location) : List (Str × Str) :=
  locations.map (fun l => (l.location_id, l.name))

/-- A row of `report_data` (`app.py` 215-221). -/
structure BalanceRow where
  product_id : Str
  product_name : Str
  location_id : Str
  location_name : Str
  qty : Int
deriving DecidableEq

/-- Building one report row (`app.py` 214-221): `key.split('|')` unpacked into
exactly two parts — any other number of parts raises `ValueError` in Python,
modelled as `none`; names resolve through the registries with an `Unknown`
fallback. -/
def mkRow (products : List Product) (locations : List Location) (key : Str)
    (qty : Int) : Option BalanceRow :=
  match splitOnChar '|' key with
  | [product_id, location_id] =>
    some { product_id := product_id,
           product_name := pyDictGetD (product_dict products) product_id ("Unknown".toList),
           location_id := location_id,
           location_name := pyDictGetD (location_dict locations) location_id ("Unknown".toList),
           qty := qty }
  | _ => none

/-- The row `mkRow` produces for the key of the pair `(p, l)`. -/
def entry_row (products : List Product) (locations : List Location) (p l : Str)
    (qty : Int) : BalanceRow :=
  { product_id := p,
    product_name := pyDictGetD (product_dict products) p ("Unknown".toList),
    location_id := l,
    location_name := pyDictGetD (location_dict locations) l ("Unknown".toList),
    qty := qty }

/-- The row-building loop over `balance.items()` (`app.py` 211-221): entries
whose value is exactly `0` are skipped; a `ValueError` while unpacking any kept
key aborts the whole request (`none`). -/
def report_rows (products : List Product) (locations : List Location) :
    List (Str × Int) → Option (List BalanceRow)
  | [] => some []
  | (key, qty) :: rest =>
    if qty ≠ 0 then
      match mkRow products locations key qty, report_rows products locations rest with
      | some r, some rs => some (r :: rs)
      | _, _ => none
    else report_rows products locations rest

/-- The sort key of `app.py` 223, as a relation: ascending by the pair
`(product_name, location_name)`, product name primary, location name
secondary, both compared case-sensitively by code point. -/
def row_le (a b : BalanceRow) : Prop :=
  a.product_name < b.product_name ∨
    (a.product_name = b.product_name ∧ a.location_name ≤ b.location_name)

instance decRowLe : DecidableRel row_le := fun a b =>
  inferInstanceAs (Decidable (a.product_name < b.product_name ∨
    (a.product_name = b.product_name ∧ a.location_name ≤ b.location_name)))

/-- The `report` view (`app.py` 186-225): aggregate the ledger into the
balance dict, build a row per nonzero entry, and sort.  Python's `list.sort`
is a stable sort under the total preorder `row_le`; insertion sort with
`row_le` is also stable and sorted, and a stable sort's output under a total
preorder is unique, so the two agree on every input. -/
def report (movements : List Movement) (products : List Product)
    (locations : List Location) : Option (List BalanceRow) :=
  (report_rows products locations (computeBalance movements)).map
    (List.insertionSort row_le)

/-! Specification-side definitions: the quantities the claims talk about,
stated over pairs of identifiers rather than the code's concatenated keys. -/

/-- The `|`-separated composite key can only be decoded unambiguously when the
identifiers themselves avoid the separator. -/
def pipe_free (s : Str) : Prop := '|' ∉ s

instance decPipeFree : DecidablePred pipe_free := fun s =>
  inferInstanceAs (Decidable ('|' ∉ s))

/-- A location field avoids the `|` separator (vacuously for `None`). -/
def opt_pipe_free : Option Str → Prop
  | none => True
  | some l => pipe_free l

instance decOptPipeFree : DecidablePred opt_pipe_free := fun o =>
  match o with
  | none => inferInstanceAs (Decidable True)
  | some l => inferInstanceAs (Decidable ('|' ∉ l))

/-- Every identifier occurring in the ledger avoids the `|` separator. -/
def pipe_free_ledger (ms : List Movement) : Prop :=
  ∀ m ∈ ms, pipe_free m.product_id ∧ opt_pipe_free m.from_location ∧
    opt_pipe_free m.to_location

instance decPipeFreeLedger : DecidablePred pipe_free_ledger := fun ms =>
  inferInstanceAs (Decidable (∀ m ∈ ms, pipe_free m.product_id ∧
    opt_pipe_free m.from_location ∧ opt_pipe_free m.to_location))

/-- The signed contribution of one movement to the balance of the pair
`(p, l)`: `+qty` when it credits `l` for product `p`, `-qty` when it debits
it (a location field is counted only when truthy, i.e. non-`None` and
non-empty, exactly as the report loop tests it). -/
def move_delta (p l : Str) (m : Movement) : Int :=
  (if m.product_id = p ∧ m.to_location = some l ∧ l ≠ [] then m.qty else 0)
  - (if m.product_id = p ∧ m.from_location = some l ∧ l ≠ [] then m.qty else 0)

/-- The net signed movement quantity of the pair `(p, l)` over a ledger, in
ledger order. -/
def net_qty (ms : List Movement) (p l : Str) : Int :=
  (ms.map (move_delta p l)).sum

/-- A string that is empty or consists only of whitespace. -/
def ws_only (s : Str) : Prop := ∀ c ∈ s, isPySpace c = true

/-- The location value `add_movement` stores for a raw form field: `None` for
an empty-after-strip field, the stripped string otherwise. -/
def norm_loc (s : Str) : Option Str :=
  if pyStrip s = [] then none else some (pyStrip s)

/-- The keys of a balance dict, in insertion order. -/
def keys (d : List (Str × Int)) : List Str := d.map Prod.fst

/-- Internal invariant of the balance dict: every key is the composite of two
pipe-free identifiers. -/
def good_bal (d : List (Str × Int)) : Prop :=
  ∀ e ∈ d, ∃ p l, pipe_free p ∧ pipe_free l ∧ e.1 = mkKey p l

/-- The product record `add_product` builds from a raw form triple
`(product_id, name, description)`. -/
def mk_product (i : Str × Str × Str) : Product :=
  { product_id := pyStrip i.1, name := pyStrip i.2.1, description := pyStrip i.2.2 }

/-- The location record `add_location` builds from a raw form triple
`(location_id, name, address)`. -/
def mk_location (i : Str × Str × Str) : Location :=
  { location_id := pyStrip i.1, name := pyStrip i.2.1, address := pyStrip i.2.2 }

/-- The record `edit_product` leaves in place of the found record: same
identifier, stripped form fields for the two mutable fields. -/
def upd_product (p : Product) (name description : Str) : Product :=
  { product_id := p.product_id, name := pyStrip name,
    description := pyStrip description }

/-- The record `edit_location` leaves in place of the found record. -/
def upd_location (l : Location) (name address : Str) : Location :=
  { location_id := l.location_id, name := pyStrip name,
    address := pyStrip address }

/-- A sequence of `add_product` requests, each against the store the previous
one left (`none` as soon as one fails). -/
def add_products_from (products : List Product) :
    List (Str × Str × Str) → Option (List Product)
  | [] => some products
  | i :: is =>
    match add_product products i.1 i.2.1 i.2.2 with
    | some ps => add_products_from ps is
    | none => none

/-- A sequence of `add_location` requests, each against the store the previous
one left. -/
def add_locations_from (locations : List Location) :
    List (Str × Str × Str) → Option (List Location)
  | [] => some locations
  | i :: is =>
    match add_location locations i.1 i.2.1 i.2.2 with
    | some ls => add_locations_from ls is
    | none => none

/-- A fixture: the spec's balance-report example ledger — ten units received
into L1, then four transferred from L1 to L2, all for product P1. -/
def fixture_movements : List Movement :=
  [{ movement_id := 1, timestamp := "t1".toList, from_location := none,
     to_location := some ("L1".toList), product_id := "P1".toList, qty := 10 },
   { movement_id := 2, timestamp := "t2".toList,
     from_location := some ("L1".toList), to_location := some ("L2".toList),
     product_id := "P1".toList, qty := 4 }]

/-- A fixture: the registry rows resolving the example's names. -/
def fixture_products : List Product :=
  [{ product_id := "P1".toList, name := "Widget".toList, description := [] }]

/-- A fixture: the two locations of the example. -/
def fixture_locations : List Location :=
  [{ location_id := "L1".toList, name := "Alpha".toList, address := [] },
   { location_id := "L2".toList, name := "Beta".toList, address := [] }]

/-- The report rows the example must produce: six left in L1, four in L2. -/
def fixture_rows : List BalanceRow :=
  [{ product_id := "P1".toList, product_name := "Widget".toList,
     location_id := "L1".toList, location_name := "Alpha".toList, qty := 6 },
   { product_id := "P1".toList, product_name := "Widget".toList,
     location_id := "L2".toList, location_name := "Beta".toList, qty := 4 }]

/-- A fixture ledger with non-contiguous ids 1 and 5, as after manual edits. -/
def fixture_ledger : List Movement :=
  [{ movement_id := 1, timestamp := [], from_location := none,
     to_location := some ("A".toList), product_id := "P".toList, qty := 1 },
   { movement_id := 5, timestamp := [], from_location := none,
     to_location := some ("A".toList), product_id := "P".toList, qty := 2 }]

/-- The fixture ledger after one successful append: id `5 + 1 = 6`. -/
def fixture_appended : List Movement :=
  fixture_ledger ++
    [{ movement_id := 6, timestamp := "t".toList,
       from_location := some ("L".toList), to_location := none,
       product_id := "P".toList, qty := 2 }]

/-! Helper lemmas about the dict model. -/

theorem dictGet_dictSet (d : List (Str × Int)) (k k' : Str) (v : Int) :
    dictGet (dictSet d k v) k' = if k' = k then v else dictGet d k' := by
  induction d with
  | nil =>
    by_cases h : k' = k
    · subst h; simp [dictSet, dictGet]
    · have h2 : ¬(k = k') := fun hk => h hk.symm
      simp [dictSet, dictGet, h, h2]
  | cons e es ih =>
    by_cases he : e.1 = k
    · by_cases h : k' = k
      · subst h; simp [dictSet, dictGet, he]
      · have h2 : ¬(k = k') := fun hk => h hk.symm
        have he' : ¬(e.1 = k') := fun hk => h (hk.symm.trans he)
        simp [dictSet, dictGet, he, h, h2, he']
    · by_cases h : k' = k
      · subst h; simp [dictSet, dictGet, he, ih]
      · simp [dictSet, dictGet, he, h, ih]

theorem dictGet_update (d : List (Str × Int)) (k k' : Str) (w : Int) :
    dictGet (dictSet d k' (dictGet d k' + w)) k =
      dictGet d k + if k = k' then w else 0 := by
  rw [dictGet_dictSet]
  split <;> simp_all

theorem dictGet_of_not_mem_keys (d : List (Str × Int)) (k : Str)
    (h : k ∉ keys d) : dictGet d k = 0 := by
  induction d with
  | nil => rfl
  | cons e es ih =>
    simp only [keys, List.map_cons, List.mem_cons, not_or] at h
    simp only [dictGet]
    rw [if_neg (fun he => h.1 he.symm)]
    exact ih h.2

theorem mem_keys_dictSet (d : List (Str × Int)) (k k' : Str) (v : Int) :
    k' ∈ keys (dictSet d k v) ↔ k' = k ∨ k' ∈ keys d := by
  induction d with
  | nil => simp [dictSet, keys]
  | cons e es ih =>
    simp only [dictSet]
    split
    · rename_i he
      subst he
      simp [keys]
    · simp only [keys, List.map_cons, List.mem_cons] at ih ⊢
      rw [ih]
      tauto

theorem nodup_keys_dictSet (d : List (Str × Int)) (k : Str) (v : Int)
    (h : (keys d).Nodup) : (keys (dictSet d k v)).Nodup := by
  induction d with
  | nil => simp [dictSet, keys]
  | cons e es ih =>
    simp only [keys, List.map_cons, List.nodup_cons] at h
    simp only [dictSet]
    split
    · rename_i he
      subst he
      simpa [keys, List.nodup_cons] using h
    · rename_i he
      simp only [keys, List.map_cons, List.nodup_cons]
      refine ⟨fun hm => ?_, ih h.2⟩
      rcases (mem_keys_dictSet es k e.1 v).1 hm with h1 | h1
      · exact he h1
      · exact h.1 h1

theorem mem_eq_dictGet (d : List (Str × Int)) (e : Str × Int)
    (hnd : (keys d).Nodup) (he : e ∈ d) : e.2 = dictGet d e.1 := by
  induction d with
  | nil => cases he
  | cons f fs ih =>
    simp only [keys, List.map_cons, List.nodup_cons] at hnd
    rcases List.mem_cons.1 he with rfl | hmem
    · simp [dictGet]
    · simp only [dictGet]
      rw [if_neg]
      · exact ih hnd.2 hmem
      · intro hk
        exact hnd.1 (hk ▸ List.mem_map_of_mem Prod.fst hmem)

theorem mem_dictSet (d : List (Str × Int)) (k : Str) (v : Int) (e : Str × Int)
    (he : e ∈ dictSet d k v) : e ∈ d ∨ e = (k, v) := by
  induction d with
  | nil => simpa [dictSet] using he
  | cons f fs ih =>
    simp only [dictSet] at he
    split at he
    · rcases List.mem_cons.1 he with rfl | hmem
      · right; rfl
      · left; exact List.mem_cons_of_mem f hmem
    · rcases List.mem_cons.1 he with rfl | hmem
      · left; exact List.mem_cons_self _ _
      · rcases ih hmem with h1 | h1
        · left; exact List.mem_cons_of_mem f h1
        · right; exact h1

/-! Helper lemmas about stripping, splitting and Python's max. -/

theorem dropWhile_all_eq_nil (p : Char → Bool) (l : Str)
    (h : ∀ c ∈ List.dropWhile p l, p c = true) : List.dropWhile p l = [] := by
  induction l with
  | nil => rfl
  | cons c cs ih =>
    by_cases hc : p c
    · rw [List.dropWhile_cons_of_pos hc] at h ⊢
      exact ih h
    · rw [List.dropWhile_cons_of_neg hc] at h
      exact absurd (h c (List.mem_cons_self _ _)) hc

theorem pyStrip_eq_nil_iff (s : Str) : pyStrip s = [] ↔ ws_only s := by
  constructor
  · intro h c hc
    unfold pyStrip at h
    rw [List.reverse_eq_nil_iff, List.dropWhile_eq_nil_iff] at h
    have hall : ∀ x ∈ List.dropWhile isPySpace s, isPySpace x = true := by
      intro x hx
      exact h x (by simpa using hx)
    have hsplit : List.takeWhile isPySpace s ++ List.dropWhile isPySpace s = s :=
      List.takeWhile_append_dropWhile isPySpace s
    rcases (by rw [← hsplit] at hc; exact List.mem_append.1 hc) with h1 | h1
    · exact List.mem_takeWhile_imp h1
    · exact hall c h1
  · intro h
    have h1 : List.dropWhile isPySpace s = [] :=
      List.dropWhile_eq_nil_iff.2 (fun c hc => h c hc)
    simp [pyStrip, h1]

theorem not_ws_only_pyStrip (s : Str) (h : pyStrip s ≠ []) : ¬ ws_only (pyStrip s) := by
  intro hws
  apply h
  unfold pyStrip at hws ⊢
  rw [List.reverse_eq_nil_iff]
  apply dropWhile_all_eq_nil
  intro c hc
  exact hws c (by simpa using hc)

theorem splitOnChar_cons (sep c : Char) (cs : Str) :
    splitOnChar sep (c :: cs) =
      if c = sep then [] :: splitOnChar sep cs
      else
        match splitOnChar sep cs with
        | [] => [[c]]
        | r :: rs => (c :: r) :: rs := rfl

theorem splitOnChar_of_not_mem (sep : Char) (s : Str) (h : sep ∉ s) :
    splitOnChar sep s = [s] := by
  induction s with
  | nil => rfl
  | cons c cs ih =>
    simp only [List.mem_cons, not_or] at h
    have hc : ¬(c = sep) := fun hc2 => h.1 hc2.symm
    rw [splitOnChar_cons, if_neg hc, ih h.2]

theorem takeWhile_mkKey (p l : Str) (hp : pipe_free p) :
    (mkKey p l).takeWhile (fun c => !(c = '|')) = p := by
  induction p with
  | nil => simp [mkKey, List.takeWhile]
  | cons c cs ih =>
    simp only [pipe_free, List.mem_cons, not_or] at hp
    have hc : ¬(c = '|') := fun h2 => hp.1 h2.symm
    have hkey : mkKey (c :: cs) l = c :: mkKey cs l := rfl
    rw [hkey, List.takeWhile_cons]
    simp only [hc, decide_False, Bool.not_false, if_true, ih hp.2]

theorem dropWhile_mkKey (p l : Str) (hp : pipe_free p) :
    (mkKey p l).dropWhile (fun c => !(c = '|')) = '|' :: l := by
  induction p with
  | nil => simp [mkKey, List.dropWhile]
  | cons c cs ih =>
    simp only [pipe_free, List.mem_cons, not_or] at hp
    have hc : ¬(c = '|') := fun h2 => hp.1 h2.symm
    have hkey : mkKey (c :: cs) l = c :: mkKey cs l := rfl
    rw [hkey, List.dropWhile_cons]
    simp only [hc, decide_False, Bool.not_false, if_true, ih hp.2]

theorem splitOnChar_mkKey (p l : Str) (hp : pipe_free p) (hl : pipe_free l) :
    splitOnChar '|' (mkKey p l) = [p, l] := by
  induction p with
  | nil =>
    have h1 : mkKey [] l = '|' :: l := rfl
    rw [h1, splitOnChar_cons, if_pos rfl, splitOnChar_of_not_mem '|' l hl]
  | cons c cs ih =>
    simp only [pipe_free, List.mem_cons, not_or] at hp
    have hc : ¬(c = '|') := fun hc2 => hp.1 hc2.symm
    have hkey : mkKey (c :: cs) l = c :: mkKey cs l := rfl
    rw [hkey, splitOnChar_cons, if_neg hc, ih hp.2]

theorem mkKey_inj (p₁ l₁ p₂ l₂ : Str) (hp₁ : pipe_free p₁) (hp₂ : pipe_free p₂)
    (h : mkKey p₁ l₁ = mkKey p₂ l₂) : p₁ = p₂ ∧ l₁ = l₂ := by
  have h1 : p₁ = p₂ := by
    rw [← takeWhile_mkKey p₁ l₁ hp₁, ← takeWhile_mkKey p₂ l₂ hp₂, h]
  have h2 : '|' :: l₁ = '|' :: l₂ := by
    rw [← dropWhile_mkKey p₁ l₁ hp₁, ← dropWhile_mkKey p₂ l₂ hp₂, h]
  refine ⟨h1, ?_⟩
  injection h2

theorem le_foldl_max (l : List Int) (a : Int) : a ≤ l.foldl max a := by
  induction l generalizing a with
  | nil => exact le_refl a
  | cons x xs ih =>
    exact le_trans (le_max_left a x) (ih (max a x))

theorem mem_le_foldl_max (l : List Int) (a x : Int) (hx : x ∈ l) :
    x ≤ l.foldl max a := by
  induction l generalizing a with
  | nil => cases hx
  | cons y ys ih =>
    rcases List.mem_cons.1 hx with rfl | hmem
    · exact le_trans (le_max_right a x) (le_foldl_max ys (max a x))
    · exact ih (max a y) hmem

theorem foldl_max_mem (l : List Int) (a : Int) : l.foldl max a ∈ a :: l := by
  induction l generalizing a with
  | nil => exact List.mem_cons_self a []
  | cons y ys ih =>
    rcases List.mem_cons.1 (ih (max a y)) with h | h
    · rcases max_choice a y with h1 | h1
      · exact List.mem_cons.2 (Or.inl (h.trans h1))
      · exact List.mem_cons.2 (Or.inr (List.mem_cons.2 (Or.inl (h.trans h1))))
    · exact List.mem_cons.2 (Or.inr (List.mem_cons.2 (Or.inr h)))

theorem mem_le_pyMax (l : List Int) (d x : Int) (hx : x ∈ l) : x ≤ pyMax l d := by
  cases l with
  | nil => cases hx
  | cons y ys =>
    rcases List.mem_cons.1 hx with rfl | hmem
    · exact le_foldl_max ys x
    · exact mem_le_foldl_max ys y x hmem

theorem pyMax_mem (l : List Int) (d : Int) (h : l ≠ []) : pyMax l d ∈ l := by
  cases l with
  | nil => exact absurd rfl h
  | cons y ys =>
    simpa [pyMax] using foldl_max_mem ys y

/-! Core lemmas: what the balance loop computes at the key of a pair of
pipe-free identifiers. -/

theorem dictGet_to_step (bal : List (Str × Int)) (pid lt : Str) (q : Int)
    (p l : Str) (hp : pipe_free p) (hpid : pipe_free pid) (hlt : lt ≠ []) :
    dictGet (dictSet bal (mkKey pid lt) (dictGet bal (mkKey pid lt) + q)) (mkKey p l) =
      dictGet bal (mkKey p l) +
        if pid = p ∧ some lt = some l ∧ l ≠ [] then q else 0 := by
  rw [dictGet_update]
  by_cases hk : mkKey p l = mkKey pid lt
  · obtain ⟨h1, h2⟩ := mkKey_inj p l pid lt hp hpid hk
    subst h1; subst h2
    rw [if_pos rfl, if_pos ⟨rfl, rfl, hlt⟩]
  · rw [if_neg hk]
    have hcond : ¬(pid = p ∧ some lt = some l ∧ l ≠ []) := by
      rintro ⟨rfl, h2, h3⟩
      injection h2 with h2
      exact hk (by rw [h2])
    rw [if_neg hcond]

theorem dictGet_from_step (bal : List (Str × Int)) (pid lf : Str) (q : Int)
    (p l : Str) (hp : pipe_free p) (hpid : pipe_free pid) (hlf : lf ≠ []) :
    dictGet (dictSet bal (mkKey pid lf) (dictGet bal (mkKey pid lf) - q)) (mkKey p l) =
      dictGet bal (mkKey p l) -
        if pid = p ∧ some lf = some l ∧ l ≠ [] then q else 0 := by
  have hsub : dictGet bal (mkKey pid lf) - q = dictGet bal (mkKey pid lf) + (-q) := by
    ring
  rw [hsub, dictGet_update]
  by_cases hk : mkKey p l = mkKey pid lf
  · obtain ⟨h1, h2⟩ := mkKey_inj p l pid lf hp hpid hk
    subst h1; subst h2
    rw [if_pos rfl, if_pos ⟨rfl, rfl, hlf⟩]
    ring
  · rw [if_neg hk]
    have hcond : ¬(pid = p ∧ some lf = some l ∧ l ≠ []) := by
      rintro ⟨rfl, h2, h3⟩
      injection h2 with h2
      exact hk (by rw [h2])
    rw [if_neg hcond]
    ring

theorem dictGet_apply_movement (bal : List (Str × Int)) (m : Movement) (p l : Str)
    (hp : pipe_free p) (hm : pipe_free m.product_id) :
    dictGet (apply_movement bal m) (mkKey p l) =
      dictGet bal (mkKey p l) + move_delta p l m := by
  obtain ⟨mid, ts, fl, tl, pid, q⟩ := m
  have hpid : pipe_free pid := hm
  cases fl with
  | none =>
    cases tl with
    | none => simp [apply_movement, move_delta]
    | some lt =>
      by_cases hlt : lt = []
      · subst hlt
        have hcond : ¬(pid = p ∧ (some [] : Option Str) = some l ∧ l ≠ []) := by
          rintro ⟨_, h2, h3⟩
          injection h2 with h2
          exact h3 h2.symm
        simp [apply_movement, move_delta, hcond]
      · have h1 : apply_movement bal ⟨mid, ts, none, some lt, pid, q⟩ =
            dictSet bal (mkKey pid lt) (dictGet bal (mkKey pid lt) + q) := by
          simp [apply_movement, hlt]
        rw [h1, dictGet_to_step bal pid lt q p l hp hpid hlt]
        simp only [move_delta]
        have hnone : ¬(pid = p ∧ (none : Option Str) = some l ∧ l ≠ []) := by
          rintro ⟨_, h2, _⟩
          exact Option.noConfusion h2
        rw [if_neg hnone]
        ring
  | some lf =>
    by_cases hlf : lf = []
    · subst hlf
      have hcondf : ¬(pid = p ∧ (some [] : Option Str) = some l ∧ l ≠ []) := by
        rintro ⟨_, h2, h3⟩
        injection h2 with h2
        exact h3 h2.symm
      cases tl with
      | none => simp [apply_movement, move_delta, hcondf]
      | some lt =>
        by_cases hlt : lt = []
        · subst hlt
          simp [apply_movement, move_delta, hcondf]
        · have h1 : apply_movement bal ⟨mid, ts, some [], some lt, pid, q⟩ =
              dictSet bal (mkKey pid lt) (dictGet bal (mkKey pid lt) + q) := by
            simp [apply_movement, hlt]
          rw [h1, dictGet_to_step bal pid lt q p l hp hpid hlt]
          simp only [move_delta]
          rw [if_neg hcondf]
          ring
    · cases tl with
      | none =>
        have h1 : apply_movement bal ⟨mid, ts, some lf, none, pid, q⟩ =
            dictSet bal (mkKey pid lf) (dictGet bal (mkKey pid lf) - q) := by
          simp [apply_movement, hlf]
        rw [h1, dictGet_from_step bal pid lf q p l hp hpid hlf]
        simp only [move_delta]
        have hnone : ¬(pid = p ∧ (none : Option Str) = some l ∧ l ≠ []) := by
          rintro ⟨_, h2, _⟩
          exact Option.noConfusion h2
        rw [if_neg hnone]
        ring
      | some lt =>
        by_cases hlt : lt = []
        · subst hlt
          have hcondt : ¬(pid = p ∧ (some [] : Option Str) = some l ∧ l ≠ []) := by
            rintro ⟨_, h2, h3⟩
            injection h2 with h2
            exact h3 h2.symm
          have h1 : apply_movement bal ⟨mid, ts, some lf, some [], pid, q⟩ =
              dictSet bal (mkKey pid lf) (dictGet bal (mkKey pid lf) - q) := by
            simp [apply_movement, hlf]
          rw [h1, dictGet_from_step bal pid lf q p l hp hpid hlf]
          simp only [move_delta]
          rw [if_neg hcondt]
          ring
        · have h1 : apply_movement bal ⟨mid, ts, some lf, some lt, pid, q⟩ =
              dictSet (dictSet bal (mkKey pid lf) (dictGet bal (mkKey pid lf) - q))
                (mkKey pid lt)
                (dictGet (dictSet bal (mkKey pid lf) (dictGet bal (mkKey pid lf) - q))
                  (mkKey pid lt) + q) := by
            simp [apply_movement, hlf, hlt]
          rw [h1,
            dictGet_to_step _ pid lt q p l hp hpid hlt,
            dictGet_from_step bal pid lf q p l hp hpid hlf]
          simp only [move_delta]
          ring

theorem opt_pipe_free_some (o : Option Str) (h : opt_pipe_free o) :
    ∀ l, o = some l → pipe_free l := by
  intro l he
  subst he
  exact h

theorem good_dictSet (d : List (Str × Int)) (p l : Str) (v : Int)
    (hp : pipe_free p) (hl : pipe_free l) (G : good_bal d) :
    good_bal (dictSet d (mkKey p l) v) := by
  intro e he
  rcases mem_dictSet d (mkKey p l) v e he with h1 | h1
  · exact G e h1
  · exact ⟨p, l, hp, hl, by rw [h1]⟩

theorem apply_movement_closed (bal : List (Str × Int)) (m : Movement)
    (P : List (Str × Int) → Prop) (hbal : P bal)
    (hstep : ∀ d v lo, lo ≠ [] →
      (m.from_location = some lo ∨ m.to_location = some lo) →
      P d → P (dictSet d (mkKey m.product_id lo) v)) :
    P (apply_movement bal m) := by
  obtain ⟨mid, ts, fl, tl, pid, q⟩ := m
  cases fl with
  | none =>
    cases tl with
    | none => exact hbal
    | some lt =>
      by_cases hlt : lt = []
      · subst hlt
        exact hbal
      · have h1 : apply_movement bal ⟨mid, ts, none, some lt, pid, q⟩ =
            dictSet bal (mkKey pid lt) (dictGet bal (mkKey pid lt) + q) := by
          simp [apply_movement, hlt]
        rw [h1]
        exact hstep bal _ lt hlt (Or.inr rfl) hbal
  | some lf =>
    by_cases hlf : lf = []
    · subst hlf
      cases tl with
      | none => exact hbal
      | some lt =>
        by_cases hlt : lt = []
        · subst hlt
          exact hbal
        · have h1 : apply_movement bal ⟨mid, ts, some [], some lt, pid, q⟩ =
              dictSet bal (mkKey pid lt) (dictGet bal (mkKey pid lt) + q) := by
            simp [apply_movement, hlt]
          rw [h1]
          exact hstep bal _ lt hlt (Or.inr rfl) hbal
    · cases tl with
      | none =>
        have h1 : apply_movement bal ⟨mid, ts, some lf, none, pid, q⟩ =
            dictSet bal (mkKey pid lf) (dictGet bal (mkKey pid lf) - q) := by
          simp [apply_movement, hlf]
        rw [h1]
        exact hstep bal _ lf hlf (Or.inl rfl) hbal
      | some lt =>
        by_cases hlt : lt = []
        · subst hlt
          have h1 : apply_movement bal ⟨mid, ts, some lf, some [], pid, q⟩ =
              dictSet bal (mkKey pid lf) (dictGet bal (mkKey pid lf) - q) := by
            simp [apply_movement, hlf]
          rw [h1]
          exact hstep bal _ lf hlf (Or.inl rfl) hbal
        · have h1 : apply_movement bal ⟨mid, ts, some lf, some lt, pid, q⟩ =
              dictSet (dictSet bal (mkKey pid lf) (dictGet bal (mkKey pid lf) - q))
                (mkKey pid lt)
                (dictGet (dictSet bal (mkKey pid lf) (dictGet bal (mkKey pid lf) - q))
                  (mkKey pid lt) + q) := by
            simp [apply_movement, hlf, hlt]
          rw [h1]
          exact hstep _ _ lt hlt (Or.inr rfl)
            (hstep bal _ lf hlf (Or.inl rfl) hbal)

theorem good_bal_apply_movement (bal : List (Str × Int)) (m : Movement)
    (hm : pipe_free m.product_id)
    (hf : ∀ l, m.from_location = some l → pipe_free l)
    (ht : ∀ l, m.to_location = some l → pipe_free l)
    (G : good_bal bal) : good_bal (apply_movement bal m) := by
  refine apply_movement_closed bal m good_bal G ?_
  intro d v lo _ hor hd
  rcases hor with h | h
  · exact good_dictSet d m.product_id lo v hm (hf lo h) hd
  · exact good_dictSet d m.product_id lo v hm (ht lo h) hd

theorem nodup_keys_apply_movement (bal : List (Str × Int)) (m : Movement)
    (h : (keys bal).Nodup) : (keys (apply_movement bal m)).Nodup := by
  refine apply_movement_closed bal m (fun d => (keys d).Nodup) h ?_
  intro d v lo _ _ hd
  exact nodup_keys_dictSet d _ v hd

theorem good_bal_foldl (ms : List Movement) (H : pipe_free_ledger ms) :
    ∀ bal, good_bal bal → good_bal (ms.foldl apply_movement bal) := by
  induction ms with
  | nil => exact fun bal G => G
  | cons m ms ih =>
    intro bal G
    have hm := H m (List.mem_cons_self m ms)
    exact ih (fun x hx => H x (List.mem_cons_of_mem m hx)) (apply_movement bal m)
      (good_bal_apply_movement bal m hm.1 (opt_pipe_free_some _ hm.2.1)
        (opt_pipe_free_some _ hm.2.2) G)

theorem nodup_keys_foldl (ms : List Movement) :
    ∀ bal, (keys bal).Nodup → (keys (ms.foldl apply_movement bal)).Nodup := by
  induction ms with
  | nil => exact fun bal h => h
  | cons m ms ih =>
    exact fun bal h => ih (apply_movement bal m) (nodup_keys_apply_movement bal m h)

theorem good_bal_computeBalance (ms : List Movement) (H : pipe_free_ledger ms) :
    good_bal (computeBalance ms) :=
  good_bal_foldl ms H [] (fun e he => absurd he (List.not_mem_nil e))

theorem nodup_keys_computeBalance (ms : List Movement) :
    (keys (computeBalance ms)).Nodup :=
  nodup_keys_foldl ms [] (by simp [keys])

theorem dictGet_foldl (ms : List Movement)
    (H : ∀ m ∈ ms, pipe_free m.product_id) (p l : Str) (hp : pipe_free p) :
    ∀ bal, dictGet (ms.foldl apply_movement bal) (mkKey p l) =
      dictGet bal (mkKey p l) + net_qty ms p l := by
  induction ms with
  | nil => intro bal; simp [net_qty]
  | cons m ms ih =>
    intro bal
    simp only [List.foldl_cons]
    rw [ih (fun x hx => H x (List.mem_cons_of_mem m hx)) (apply_movement bal m),
      dictGet_apply_movement bal m p l hp (H m (List.mem_cons_self m ms))]
    simp only [net_qty, List.map_cons, List.sum_cons]
    ring

theorem computeBalance_get (ms : List Movement)
    (H : ∀ m ∈ ms, pipe_free m.product_id) (p l : Str) (hp : pipe_free p) :
    dictGet (computeBalance ms) (mkKey p l) = net_qty ms p l := by
  have h := dictGet_foldl ms H p l hp []
  simpa [computeBalance, dictGet] using h

/-! Lemmas about the row-building loop. -/

theorem report_rows_cons (ps : List Product) (ls : List Location) (key : Str)
    (q : Int) (rest : List (Str × Int)) :
    report_rows ps ls ((key, q) :: rest) =
      if q ≠ 0 then
        match mkRow ps ls key q, report_rows ps ls rest with
        | some r, some rs => some (r :: rs)
        | _, _ => none
      else report_rows ps ls rest := rfl

theorem mkRow_mkKey (ps : List Product) (ls : List Location) (p l : Str)
    (q : Int) (hp : pipe_free p) (hl : pipe_free l) :
    mkRow ps ls (mkKey p l) q = some (entry_row ps ls p l q) := by
  rw [mkRow, splitOnChar_mkKey p l hp hl]
  rfl

theorem report_rows_isSome (ps : List Product) (ls : List Location)
    (bal : List (Str × Int)) (G : good_bal bal) :
    ∃ rows, report_rows ps ls bal = some rows := by
  induction bal with
  | nil => exact ⟨[], rfl⟩
  | cons e rest ih =>
    obtain ⟨k, q⟩ := e
    obtain ⟨rows, hrows⟩ := ih (fun x hx => G x (List.mem_cons_of_mem _ hx))
    obtain ⟨p, l, hp, hl, hkey⟩ := G (k, q) (List.mem_cons_self _ rest)
    have hk : k = mkKey p l := hkey
    subst hk
    by_cases hq : q = 0
    · subst hq
      refine ⟨rows, ?_⟩
      rw [report_rows_cons, if_neg (by simp), hrows]
    · refine ⟨entry_row ps ls p l q :: rows, ?_⟩
      rw [report_rows_cons, if_pos hq, mkRow_mkKey ps ls p l q hp hl, hrows]

theorem report_rows_mem (ps : List Product) (ls : List Location)
    (bal : List (Str × Int)) (G : good_bal bal) :
    ∀ rows, report_rows ps ls bal = some rows → ∀ r ∈ rows,
      (mkKey r.product_id r.location_id, r.qty) ∈ bal ∧ r.qty ≠ 0 ∧
      pipe_free r.product_id ∧ pipe_free r.location_id := by
  induction bal with
  | nil =>
    intro rows h r hr
    have h' : some ([] : List BalanceRow) = some rows := h
    have hrw : ([] : List BalanceRow) = rows := Option.some.inj h'
    subst hrw
    cases hr
  | cons e rest ih =>
    obtain ⟨k, q⟩ := e
    obtain ⟨p, l, hp, hl, hkey⟩ := G (k, q) (List.mem_cons_self _ rest)
    have hk : k = mkKey p l := hkey
    subst hk
    have Grest : good_bal rest := fun x hx => G x (List.mem_cons_of_mem _ hx)
    intro rows h r hr
    by_cases hq : q = 0
    · subst hq
      rw [report_rows_cons, if_neg (by simp)] at h
      obtain ⟨h1, h2, h3, h4⟩ := ih Grest rows h r hr
      exact ⟨List.mem_cons_of_mem _ h1, h2, h3, h4⟩
    · rw [report_rows_cons, if_pos hq, mkRow_mkKey ps ls p l q hp hl] at h
      cases hrest : report_rows ps ls rest with
      | none =>
        rw [hrest] at h
        exact absurd h (by simp)
      | some rs =>
        rw [hrest] at h
        have h' : some (entry_row ps ls p l q :: rs) = some rows := h
        have hrw : entry_row ps ls p l q :: rs = rows := Option.some.inj h'
        subst hrw
        rcases List.mem_cons.1 hr with rfl | hmem
        · exact ⟨List.mem_cons_self _ _, hq, hp, hl⟩
        · obtain ⟨h1, h2, h3, h4⟩ := ih Grest rs hrest r hmem
          exact ⟨List.mem_cons_of_mem _ h1, h2, h3, h4⟩

theorem countP_key_not_mem (d : List (Str × Int)) (k : Str) (h : k ∉ keys d) :
    d.countP (fun e => decide (e.1 = k ∧ e.2 ≠ 0)) = 0 := by
  induction d with
  | nil => rfl
  | cons e rest ih =>
    simp only [keys, List.map_cons, List.mem_cons, not_or] at h
    rw [List.countP_cons, ih h.2]
    have hek : ¬(e.1 = k ∧ e.2 ≠ 0) := fun hc => h.1 hc.1.symm
    simp [hek]

theorem countP_key_dictGet (d : List (Str × Int)) (k : Str)
    (hnd : (keys d).Nodup) :
    d.countP (fun e => decide (e.1 = k ∧ e.2 ≠ 0)) =
      if dictGet d k = 0 then 0 else 1 := by
  induction d with
  | nil => simp [dictGet]
  | cons e rest ih =>
    simp only [keys, List.map_cons, List.nodup_cons] at hnd
    rw [List.countP_cons]
    by_cases hek : e.1 = k
    · have hnot : k ∉ keys rest := by
        show k ∉ List.map Prod.fst rest
        exact hek ▸ hnd.1
      rw [countP_key_not_mem rest k hnot]
      have hget : dictGet (e :: rest) k = e.2 := by simp [dictGet, hek]
      rw [hget]
      by_cases hq : e.2 = 0
      · simp [hek, hq]
      · simp [hek, hq]
    · have hget : dictGet (e :: rest) k = dictGet rest k := by simp [dictGet, hek]
      rw [hget, ih hnd.2]
      simp [hek]

theorem report_rows_countP (ps : List Product) (ls : List Location) (p l : Str)
    (hp : pipe_free p) (hl : pipe_free l) (bal : List (Str × Int))
    (G : good_bal bal) :
    ∀ rows, report_rows ps ls bal = some rows →
      rows.countP (fun r => decide (r.product_id = p ∧ r.location_id = l)) =
        bal.countP (fun e => decide (e.1 = mkKey p l ∧ e.2 ≠ 0)) := by
  induction bal with
  | nil =>
    intro rows h
    have h' : some ([] : List BalanceRow) = some rows := h
    have hrw : ([] : List BalanceRow) = rows := Option.some.inj h'
    subst hrw
    rfl
  | cons e rest ih =>
    obtain ⟨k, q⟩ := e
    obtain ⟨p', l', hp', hl', hkey⟩ := G (k, q) (List.mem_cons_self _ rest)
    have hk : k = mkKey p' l' := hkey
    subst hk
    have Grest : good_bal rest := fun x hx => G x (List.mem_cons_of_mem _ hx)
    intro rows h
    by_cases hq : q = 0
    · subst hq
      rw [report_rows_cons, if_neg (by simp)] at h
      rw [List.countP_cons, ih Grest rows h]
      simp
    · rw [report_rows_cons, if_pos hq, mkRow_mkKey ps ls p' l' q hp' hl'] at h
      cases hrest : report_rows ps ls rest with
      | none =>
        rw [hrest] at h
        exact absurd h (by simp)
      | some rs =>
        rw [hrest] at h
        have h' : some (entry_row ps ls p' l' q :: rs) = some rows := h
        have hrw : entry_row ps ls p' l' q :: rs = rows := Option.some.inj h'
        subst hrw
        rw [List.countP_cons, List.countP_cons, ih Grest rs hrest]
        congr 1
        have hrowp : (entry_row ps ls p' l' q).product_id = p' := rfl
        have hrowl : (entry_row ps ls p' l' q).location_id = l' := rfl
        by_cases hmatch : p' = p ∧ l' = l
        · obtain ⟨rfl, rfl⟩ := hmatch
          simp [hq, hrowp, hrowl]
        · have hkeyne : ¬(mkKey p' l' = mkKey p l ∧ q ≠ 0) := by
            rintro ⟨hke, _⟩
            exact hmatch (mkKey_inj p' l' p l hp' hp hke)
          have hne : ¬((entry_row ps ls p' l' q).product_id = p ∧
              (entry_row ps ls p' l' q).location_id = l) := by
            rw [hrowp, hrowl]
            exact hmatch
          simp [hne, hkeyne]

theorem report_rows_all_zero (ps : List Product) (ls : List Location)
    (bal : List (Str × Int)) (h : ∀ e ∈ bal, e.2 = 0) :
    report_rows ps ls bal = some [] := by
  induction bal with
  | nil => rfl
  | cons e rest ih =>
    obtain ⟨k, q⟩ := e
    have hq : q = 0 := h (k, q) (List.mem_cons_self _ _)
    subst hq
    rw [report_rows_cons, if_neg (by simp)]
    exact ih (fun x hx => h x (List.mem_cons_of_mem _ hx))

/-! Order facts about the sort relation, and the assembled report lemmas. -/

instance : IsTrans BalanceRow row_le := by
  constructor
  intro a b c hab hbc
  have hab' : a.product_name < b.product_name ∨
      (a.product_name = b.product_name ∧ a.location_name ≤ b.location_name) := hab
  have hbc' : b.product_name < c.product_name ∨
      (b.product_name = c.product_name ∧ b.location_name ≤ c.location_name) := hbc
  show a.product_name < c.product_name ∨
    (a.product_name = c.product_name ∧ a.location_name ≤ c.location_name)
  rcases hab' with h1 | ⟨h1, h2⟩
  · rcases hbc' with h3 | ⟨h3, _⟩
    · exact Or.inl (lt_trans h1 h3)
    · exact Or.inl (h3 ▸ h1)
  · rcases hbc' with h3 | ⟨h3, h4⟩
    · exact Or.inl (h1 ▸ h3)
    · exact Or.inr ⟨h1.trans h3, le_trans h2 h4⟩

instance : IsTotal BalanceRow row_le := by
  constructor
  intro a b
  show (a.product_name < b.product_name ∨
      (a.product_name = b.product_name ∧ a.location_name ≤ b.location_name)) ∨
    (b.product_name < a.product_name ∨
      (b.product_name = a.product_name ∧ b.location_name ≤ a.location_name))
  rcases lt_trichotomy a.product_name b.product_name with h | h | h
  · exact Or.inl (Or.inl h)
  · rcases le_total a.location_name b.location_name with h2 | h2
    · exact Or.inl (Or.inr ⟨h, h2⟩)
    · exact Or.inr (Or.inr ⟨h.symm, h2⟩)
  · exact Or.inr (Or.inl h)

theorem apply_movement_self (bal : List (Str × Int)) (m : Movement)
    (h : m.from_location = m.to_location) (k : Str) :
    dictGet (apply_movement bal m) k = dictGet bal k := by
  obtain ⟨mid, ts, fl, tl, pid, q⟩ := m
  have h' : fl = tl := h
  subst h'
  cases fl with
  | none => rfl
  | some lf =>
    by_cases hlf : lf = []
    · subst hlf
      have h1 : apply_movement bal ⟨mid, ts, some [], some [], pid, q⟩ = bal := by
        simp [apply_movement]
      rw [h1]
    · have h1 : apply_movement bal ⟨mid, ts, some lf, some lf, pid, q⟩ =
          dictSet (dictSet bal (mkKey pid lf) (dictGet bal (mkKey pid lf) - q))
            (mkKey pid lf)
            (dictGet (dictSet bal (mkKey pid lf) (dictGet bal (mkKey pid lf) - q))
              (mkKey pid lf) + q) := by
        simp [apply_movement, hlf]
      rw [h1, dictGet_dictSet]
      by_cases hk : k = mkKey pid lf
      · rw [if_pos hk, dictGet_dictSet, if_pos rfl, hk]
        ring
      · rw [if_neg hk, dictGet_dictSet, if_neg hk]

theorem dictGet_foldl_self (ms : List Movement)
    (H : ∀ m ∈ ms, m.from_location = m.to_location) :
    ∀ bal k, dictGet (ms.foldl apply_movement bal) k = dictGet bal k := by
  induction ms with
  | nil => exact fun bal k => rfl
  | cons m ms ih =>
    intro bal k
    simp only [List.foldl_cons]
    rw [ih (fun x hx => H x (List.mem_cons_of_mem _ hx)) (apply_movement bal m) k,
      apply_movement_self bal m (H m (List.mem_cons_self _ _)) k]

theorem net_qty_eq_zero_of_bad (ms : List Movement) (p l : Str)
    (H : pipe_free_ledger ms) (hbad : ¬(pipe_free p ∧ pipe_free l)) :
    net_qty ms p l = 0 := by
  unfold net_qty
  apply List.sum_eq_zero
  intro x hx
  obtain ⟨m, hm, rfl⟩ := List.mem_map.1 hx
  unfold move_delta
  have h1 : ¬(m.product_id = p ∧ m.to_location = some l ∧ l ≠ []) := by
    rintro ⟨rfl, h2, _⟩
    exact hbad ⟨(H m hm).1, opt_pipe_free_some _ (H m hm).2.2 l h2⟩
  have h2 : ¬(m.product_id = p ∧ m.from_location = some l ∧ l ≠ []) := by
    rintro ⟨rfl, h2, _⟩
    exact hbad ⟨(H m hm).1, opt_pipe_free_some _ (H m hm).2.1 l h2⟩
  rw [if_neg h1, if_neg h2]
  ring

theorem report_spec (ms : List Movement) (ps : List Product) (ls : List Location)
    (H : pipe_free_ledger ms) :
    ∃ rows, report ms ps ls = some rows ∧
      (∀ r ∈ rows, r.qty = net_qty ms r.product_id r.location_id) ∧
      (∀ p l, pipe_free p → pipe_free l →
        rows.countP (fun r => decide (r.product_id = p ∧ r.location_id = l)) =
          if net_qty ms p l = 0 then 0 else 1) ∧
      (∀ r ∈ rows, pipe_free r.product_id ∧ pipe_free r.location_id) := by
  have G := good_bal_computeBalance ms H
  have hnd := nodup_keys_computeBalance ms
  have Hpid : ∀ m ∈ ms, pipe_free m.product_id := fun m hm => (H m hm).1
  obtain ⟨rows0, hrows0⟩ := report_rows_isSome ps ls _ G
  have hmem0 : ∀ r ∈ rows0,
      (mkKey r.product_id r.location_id, r.qty) ∈ computeBalance ms ∧ r.qty ≠ 0 ∧
      pipe_free r.product_id ∧ pipe_free r.location_id :=
    report_rows_mem ps ls _ G rows0 hrows0
  refine ⟨List.insertionSort row_le rows0, ?_, ?_, ?_, ?_⟩
  · simp [report, hrows0]
  · intro r hr
    have hr0 : r ∈ rows0 := (List.perm_insertionSort row_le rows0).mem_iff.1 hr
    obtain ⟨hmem, _, hp, _⟩ := hmem0 r hr0
    have hval : r.qty = dictGet (computeBalance ms) (mkKey r.product_id r.location_id) :=
      mem_eq_dictGet _ _ hnd hmem
    rw [hval, computeBalance_get ms Hpid _ _ hp]
  · intro p l hp hl
    rw [(List.perm_insertionSort row_le rows0).countP_eq,
      report_rows_countP ps ls p l hp hl _ G rows0 hrows0,
      countP_key_dictGet _ _ hnd, computeBalance_get ms Hpid p l hp]
  · intro r hr
    have hr0 : r ∈ rows0 := (List.perm_insertionSort row_le rows0).mem_iff.1 hr
    obtain ⟨_, _, hp, hl⟩ := hmem0 r hr0
    exact ⟨hp, hl⟩

/-! Helper lemmas for the ledger-append and registry claims. -/

theorem movement_id_lt_next (ms : List Movement) (m : Movement) (hm : m ∈ ms) :
    m.movement_id < next_movement_id ms := by
  have h := mem_le_pyMax (ms.map Movement.movement_id) 0 m.movement_id
    (List.mem_map_of_mem Movement.movement_id hm)
  unfold next_movement_id
  omega

theorem add_movement_eq (ms : List Movement) (now p f t : Str) (q : Int) :
    add_movement ms now p f t q =
      if pyStrip f = [] ∧ pyStrip t = [] then none
      else some (ms ++
        [{ movement_id := next_movement_id ms, timestamp := now,
           from_location := norm_loc f, to_location := norm_loc t,
           product_id := p, qty := q }]) := by
  unfold add_movement norm_loc
  by_cases hf : pyStrip f = [] <;> by_cases ht : pyStrip t = [] <;>
    simp [hf, ht]

theorem add_product_success (ps : List Product) (i : Str × Str × Str)
    (h : ∀ pr ∈ ps, pr.product_id ≠ pyStrip i.1) :
    add_product ps i.1 i.2.1 i.2.2 = some (ps ++ [mk_product i]) := by
  unfold add_product
  have hc : ps.any (fun pr => pr.product_id == pyStrip i.1) = false := by
    rw [List.any_eq_false]
    intro pr hpr
    simp only [beq_iff_eq]
    exact h pr hpr
  simp only [hc, Bool.false_eq_true, if_false]
  rfl

theorem add_location_success (ls : List Location) (i : Str × Str × Str)
    (h : ∀ lr ∈ ls, lr.location_id ≠ pyStrip i.1) :
    add_location ls i.1 i.2.1 i.2.2 = some (ls ++ [mk_location i]) := by
  unfold add_location
  have hc : ls.any (fun lr => lr.location_id == pyStrip i.1) = false := by
    rw [List.any_eq_false]
    intro lr hlr
    simp only [beq_iff_eq]
    exact h lr hlr
  simp only [hc, Bool.false_eq_true, if_false]
  rfl

theorem add_products_from_spec (is : List (Str × Str × Str)) :
    ∀ ps, (is.map (fun i => pyStrip i.1)).Nodup →
      (∀ i ∈ is, ∀ pr ∈ ps, pr.product_id ≠ pyStrip i.1) →
      add_products_from ps is = some (ps ++ is.map mk_product) := by
  induction is with
  | nil =>
    intro ps _ _
    simp [add_products_from]
  | cons i is ih =>
    intro ps hnd hdis
    simp only [List.map_cons, List.nodup_cons] at hnd
    have hadd : add_product ps i.1 i.2.1 i.2.2 = some (ps ++ [mk_product i]) :=
      add_product_success ps i (fun pr hpr => hdis i (List.mem_cons_self _ _) pr hpr)
    have hstep : add_products_from ps (i :: is) =
        add_products_from (ps ++ [mk_product i]) is := by
      show (match add_product ps i.1 i.2.1 i.2.2 with
        | some ps2 => add_products_from ps2 is
        | none => none) = add_products_from (ps ++ [mk_product i]) is
      rw [hadd]
    rw [hstep, ih (ps ++ [mk_product i]) hnd.2 ?_]
    · simp
    · intro j hj pr hpr
      rcases List.mem_append.1 hpr with h1 | h1
      · exact hdis j (List.mem_cons_of_mem _ hj) pr h1
      · have hpr2 : pr = mk_product i := by simpa using h1
        subst hpr2
        have : pyStrip j.1 ∈ is.map (fun x => pyStrip x.1) :=
          List.mem_map_of_mem _ hj
        intro heq
        have heq2 : pyStrip i.1 = pyStrip j.1 := heq
        exact hnd.1 (heq2 ▸ this)

theorem add_locations_from_spec (is : List (Str × Str × Str)) :
    ∀ ls, (is.map (fun i => pyStrip i.1)).Nodup →
      (∀ i ∈ is, ∀ lr ∈ ls, lr.location_id ≠ pyStrip i.1) →
      add_locations_from ls is = some (ls ++ is.map mk_location) := by
  induction is with
  | nil =>
    intro ls _ _
    simp [add_locations_from]
  | cons i is ih =>
    intro ls hnd hdis
    simp only [List.map_cons, List.nodup_cons] at hnd
    have hadd : add_location ls i.1 i.2.1 i.2.2 = some (ls ++ [mk_location i]) :=
      add_location_success ls i (fun lr hlr => hdis i (List.mem_cons_self _ _) lr hlr)
    have hstep : add_locations_from ls (i :: is) =
        add_locations_from (ls ++ [mk_location i]) is := by
      show (match add_location ls i.1 i.2.1 i.2.2 with
        | some ls2 => add_locations_from ls2 is
        | none => none) = add_locations_from (ls ++ [mk_location i]) is
      rw [hadd]
    rw [hstep, ih (ls ++ [mk_location i]) hnd.2 ?_]
    · simp
    · intro j hj lr hlr
      rcases List.mem_append.1 hlr with h1 | h1
      · exact hdis j (List.mem_cons_of_mem _ hj) lr h1
      · have hlr2 : lr = mk_location i := by simpa using h1
        subst hlr2
        have : pyStrip j.1 ∈ is.map (fun x => pyStrip x.1) :=
          List.mem_map_of_mem _ hj
        intro heq
        have heq2 : pyStrip i.1 = pyStrip j.1 := heq
        exact hnd.1 (heq2 ▸ this)

theorem edit_product_none_iff (ps : List Product) (pid n d : Str) :
    edit_product ps pid n d = none ↔ ∀ p ∈ ps, p.product_id ≠ pid := by
  induction ps with
  | nil => simp [edit_product]
  | cons p ps ih =>
    by_cases hp : p.product_id = pid
    · simp [edit_product, hp]
    · simp [edit_product, hp, ih]

theorem edit_product_some (ps : List Product) (pid n d : Str) :
    ∀ ps', edit_product ps pid n d = some ps' →
      ∃ pre p post, ps = pre ++ p :: post ∧ (∀ x ∈ pre, x.product_id ≠ pid) ∧
        p.product_id = pid ∧ ps' = pre ++ upd_product p n d :: post := by
  induction ps with
  | nil =>
    intro ps' h
    exact absurd h (by simp [edit_product])
  | cons p ps ih =>
    intro ps' h
    by_cases hp : p.product_id = pid
    · have h2 : edit_product (p :: ps) pid n d = some (upd_product p n d :: ps) := by
        simp [edit_product, hp, upd_product]
      rw [h2] at h
      have h3 : upd_product p n d :: ps = ps' := Option.some.inj h
      exact ⟨[], p, ps, rfl, by simp, hp, h3.symm⟩
    · have h2 : edit_product (p :: ps) pid n d =
          (edit_product ps pid n d).map (p :: ·) := by
        simp [edit_product, hp]
      rw [h2] at h
      cases hrec : edit_product ps pid n d with
      | none =>
        rw [hrec] at h
        exact absurd h (by simp)
      | some ps2 =>
        rw [hrec] at h
        have h3 : p :: ps2 = ps' := Option.some.inj h
        obtain ⟨pre, pr, post, heq, hpre, hpid, hps2⟩ := ih ps2 hrec
        refine ⟨p :: pre, pr, post, by rw [heq]; rfl, ?_, hpid, ?_⟩
        · intro x hx
          rcases List.mem_cons.1 hx with rfl | hx2
          · exact hp
          · exact hpre x hx2
        · rw [← h3, hps2]
          rfl

theorem edit_location_none_iff (ls : List Location) (lid n a : Str) :
    edit_location ls lid n a = none ↔ ∀ l ∈ ls, l.location_id ≠ lid := by
  induction ls with
  | nil => simp [edit_location]
  | cons l ls ih =>
    by_cases hl : l.location_id = lid
    · simp [edit_location, hl]
    · simp [edit_location, hl, ih]

theorem edit_location_some (ls : List Location) (lid n a : Str) :
    ∀ ls', edit_location ls lid n a = some ls' →
      ∃ pre l post, ls = pre ++ l :: post ∧ (∀ x ∈ pre, x.location_id ≠ lid) ∧
        l.location_id = lid ∧ ls' = pre ++ upd_location l n a :: post := by
  induction ls with
  | nil =>
    intro ls' h
    exact absurd h (by simp [edit_location])
  | cons l ls ih =>
    intro ls' h
    by_cases hl : l.location_id = lid
    · have h2 : edit_location (l :: ls) lid n a = some (upd_location l n a :: ls) := by
        simp [edit_location, hl, upd_location]
      rw [h2] at h
      have h3 : upd_location l n a :: ls = ls' := Option.some.inj h
      exact ⟨[], l, ls, rfl, by simp, hl, h3.symm⟩
    · have h2 : edit_location (l :: ls) lid n a =
          (edit_location ls lid n a).map (l :: ·) := by
        simp [edit_location, hl]
      rw [h2] at h
      cases hrec : edit_location ls lid n a with
      | none =>
        rw [hrec] at h
        exact absurd h (by simp)
      | some ls2 =>
        rw [hrec] at h
        have h3 : l :: ls2 = ls' := Option.some.inj h
        obtain ⟨pre, lr, post, heq, hpre, hlid, hls2⟩ := ih ls2 hrec
        refine ⟨l :: pre, lr, post, by rw [heq]; rfl, ?_, hlid, ?_⟩
        · intro x hx
          rcases List.mem_cons.1 hx with rfl | hx2
          · exact hl
          · exact hpre x hx2
        · rw [← h3, hls2]
          rfl

theorem add_product_none_iff (ps : List Product) (pid n d : Str) :
    add_product ps pid n d = none ↔ ∃ p ∈ ps, p.product_id = pyStrip pid := by
  unfold add_product
  by_cases hc : ps.any (fun pr => pr.product_id == pyStrip pid) = true
  · rw [if_pos hc]
    constructor
    · intro _
      obtain ⟨pr, hpr, hbeq⟩ := List.any_eq_true.1 hc
      exact ⟨pr, hpr, by simpa using hbeq⟩
    · intro _
      rfl
  · rw [if_neg hc]
    constructor
    · intro h
      exact absurd h (by simp)
    · rintro ⟨pr, hpr, heq⟩
      exact absurd (List.any_eq_true.2 ⟨pr, hpr, by simpa using heq⟩) hc

theorem add_location_none_iff (ls : List Location) (lid n a : Str) :
    add_location ls lid n a = none ↔ ∃ l ∈ ls, l.location_id = pyStrip lid := by
  unfold add_location
  by_cases hc : ls.any (fun lr => lr.location_id == pyStrip lid) = true
  · rw [if_pos hc]
    constructor
    · intro _
      obtain ⟨lr, hlr, hbeq⟩ := List.any_eq_true.1 hc
      exact ⟨lr, hlr, by simpa using hbeq⟩
    · intro _
      rfl
  · rw [if_neg hc]
    constructor
    · intro h
      exact absurd h (by simp)
    · rintro ⟨lr, hlr, heq⟩
      exact absurd (List.any_eq_true.2 ⟨lr, hlr, by simpa using heq⟩) hc

/-! The claims. -/

/-- C1 (amended): provided no identifier occurring in the movements contains
the `|` key separator, the balance report computes, for each
(product_id, location_id) pair, the net signed sum over movements in ledger
order — every emitted row carries its pair's net, and every pair with a
nonzero net is emitted; in particular, on the movements
`[{P1, None→L1, 10}, {P1, L1→L2, 4}]` the report yields exactly the rows
`{P1,L1: 6}` and `{P1,L2: 4}`.  (The pipe-freedom proviso is forced by
`c1_pipe_collision_counterexample`: the code keys its accumulator on the
string `product_id + "|" + location_id`, so ids containing `|` collide.) -/
theorem c1_report_computes_net_sums (ms : List Movement) (ps : List Product)
    (ls : List Location) (H : pipe_free_ledger ms) :
    (∃ rows, report ms ps ls = some rows ∧
      (∀ r ∈ rows, r.qty = net_qty ms r.product_id r.location_id) ∧
      (∀ p l, net_qty ms p l ≠ 0 →
        ∃ r ∈ rows, r.product_id = p ∧ r.location_id = l ∧
          r.qty = net_qty ms p l)) ∧
    report fixture_movements fixture_products fixture_locations =
      some fixture_rows := by
  constructor
  · obtain ⟨rows, hrep, hqty, hcount, hpf⟩ := report_spec ms ps ls H
    refine ⟨rows, hrep, hqty, ?_⟩
    intro p l hnz
    have hgood : pipe_free p ∧ pipe_free l := by
      by_contra hbad
      exact hnz (net_qty_eq_zero_of_bad ms p l H hbad)
    have hc := hcount p l hgood.1 hgood.2
    rw [if_neg hnz] at hc
    have hpos : 0 < rows.countP
        (fun r => decide (r.product_id = p ∧ r.location_id = l)) := by
      omega
    obtain ⟨r, hr, hpred⟩ := List.countP_pos_iff.1 hpos
    have hdec := of_decide_eq_true hpred
    refine ⟨r, hr, hdec.1, hdec.2, ?_⟩
    rw [hqty r hr, hdec.1, hdec.2]
  · decide

/-- Witness for C1: the amended theorem applied at the spec's own example
fixture pins the exact two-row output. -/
theorem c1_witness :
    report fixture_movements fixture_products fixture_locations =
      some fixture_rows :=
  (c1_report_computes_net_sums [] [] [] (by decide)).2

/-- Counterexample to C1 as frozen: with product ids "a|b" and "a" and
location ids "c" and "b|c", two distinct pairs collide on the key "a|b|c",
their +1 and -1 merge to 0, and the report is empty although each pair's net
is nonzero — so the report does not compute the per-pair net signed sum for
every list of movements. -/
theorem c1_pipe_collision_counterexample :
    net_qty
      [{ movement_id := 1, timestamp := [], from_location := none,
         to_location := some ("b|c".toList), product_id := "a".toList, qty := 1 },
       { movement_id := 2, timestamp := [], from_location := none,
         to_location := some ("c".toList), product_id := "a|b".toList, qty := -1 }]
      ("a".toList) ("b|c".toList) = 1 ∧
    report
      [{ movement_id := 1, timestamp := [], from_location := none,
         to_location := some ("b|c".toList), product_id := "a".toList, qty := 1 },
       { movement_id := 2, timestamp := [], from_location := none,
         to_location := some ("c".toList), product_id := "a|b".toList, qty := -1 }]
      [] [] = some [] := by
  constructor
  · decide
  · decide

/-- C2 (amended): provided no identifier occurring in the movements contains
the `|` key separator, a pair whose net movement quantity is exactly zero
never appears in the report, and every pair with a nonzero net appears as
exactly one row.  (The proviso is forced by `c2_pipe_collision_counterexample`.) -/
theorem c2_zero_net_dropped (ms : List Movement) (ps : List Product)
    (ls : List Location) (rows : List BalanceRow) (H : pipe_free_ledger ms)
    (h : report ms ps ls = some rows) :
    ∀ p l,
      (net_qty ms p l = 0 →
        rows.countP (fun r => decide (r.product_id = p ∧ r.location_id = l)) = 0) ∧
      (net_qty ms p l ≠ 0 →
        rows.countP (fun r => decide (r.product_id = p ∧ r.location_id = l)) = 1) := by
  obtain ⟨rows', hrep, hqty, hcount, hpf⟩ := report_spec ms ps ls H
  rw [h] at hrep
  have hrw : rows = rows' := Option.some.inj hrep
  subst hrw
  intro p l
  by_cases hgood : pipe_free p ∧ pipe_free l
  · have hc := hcount p l hgood.1 hgood.2
    constructor
    · intro h0
      rw [if_pos h0] at hc
      exact hc
    · intro h0
      rw [if_neg h0] at hc
      exact hc
  · have h0 : net_qty ms p l = 0 := net_qty_eq_zero_of_bad ms p l H hgood
    constructor
    · intro _
      refine List.countP_eq_zero.2 ?_
      intro r hr hpred
      have hdec := of_decide_eq_true hpred
      exact hgood ⟨hdec.1 ▸ (hpf r hr).1, hdec.2 ▸ (hpf r hr).2⟩
    · intro hne
      exact absurd h0 hne

/-- Witness for C2: a one-movement ledger (five units of P into L), whose
single pair appears exactly once. -/
theorem c2_witness :
    (net_qty
        [{ movement_id := 1, timestamp := [], from_location := none,
           to_location := some ("L".toList), product_id := "P".toList, qty := 5 }]
        ("P".toList) ("L".toList) = 0 →
      List.countP
        (fun r : BalanceRow =>
          decide (r.product_id = "P".toList ∧ r.location_id = "L".toList))
        [{ product_id := "P".toList, product_name := "Unknown".toList,
           location_id := "L".toList, location_name := "Unknown".toList,
           qty := 5 }] = 0) ∧
    (net_qty
        [{ movement_id := 1, timestamp := [], from_location := none,
           to_location := some ("L".toList), product_id := "P".toList, qty := 5 }]
        ("P".toList) ("L".toList) ≠ 0 →
      List.countP
        (fun r : BalanceRow =>
          decide (r.product_id = "P".toList ∧ r.location_id = "L".toList))
        [{ product_id := "P".toList, product_name := "Unknown".toList,
           location_id := "L".toList, location_name := "Unknown".toList,
           qty := 5 }] = 1) :=
  c2_zero_net_dropped
    [{ movement_id := 1, timestamp := [], from_location := none,
       to_location := some ("L".toList), product_id := "P".toList, qty := 5 }]
    [] []
    [{ product_id := "P".toList, product_name := "Unknown".toList,
       location_id := "L".toList, location_name := "Unknown".toList, qty := 5 }]
    (by decide) (by decide) ("P".toList) ("L".toList)

/-- Counterexample to C2 as frozen: with ids containing `|`, the pair
("x", "y|z") has net 2 yet the report has no row at all for it (the colliding
keys cancel), so a nonzero-net pair need not appear. -/
theorem c2_pipe_collision_counterexample :
    net_qty
      [{ movement_id := 1, timestamp := [], from_location := none,
         to_location := some ("y|z".toList), product_id := "x".toList, qty := 2 },
       { movement_id := 2, timestamp := [], from_location := none,
         to_location := some ("z".toList), product_id := "x|y".toList, qty := -2 }]
      ("x".toList) ("y|z".toList) = 2 ∧
    report
      [{ movement_id := 1, timestamp := [], from_location := none,
         to_location := some ("y|z".toList), product_id := "x".toList, qty := 2 },
       { movement_id := 2, timestamp := [], from_location := none,
         to_location := some ("z".toList), product_id := "x|y".toList, qty := -2 }]
      [] [] = some [] := by
  constructor
  · decide
  · decide

/-- C3: a successful append assigns `movement_id = max(existing ids) + 1`
(`1` on an empty ledger, even with non-contiguous ids), and on a ledger whose
ids are strictly increasing the appended ledger's ids are again strictly
increasing and unique. -/
theorem c3_movement_id_assignment (ms ms' : List Movement) (now p f t : Str)
    (q : Int) (hsorted : (ms.map Movement.movement_id).Pairwise (· < ·))
    (hadd : add_movement ms now p f t q = some ms') :
    (ms = [] → next_movement_id ms = 1) ∧
    (ms ≠ [] → next_movement_id ms - 1 ∈ ms.map Movement.movement_id ∧
      ∀ i ∈ ms.map Movement.movement_id, i ≤ next_movement_id ms - 1) ∧
    ms'.map Movement.movement_id =
      ms.map Movement.movement_id ++ [next_movement_id ms] ∧
    (ms'.map Movement.movement_id).Pairwise (· < ·) ∧
    (ms'.map Movement.movement_id).Nodup := by
  have hms' : ms' = ms ++
      [{ movement_id := next_movement_id ms, timestamp := now,
         from_location := norm_loc f, to_location := norm_loc t,
         product_id := p, qty := q }] := by
    rw [add_movement_eq] at hadd
    by_cases hc : pyStrip f = [] ∧ pyStrip t = []
    · rw [if_pos hc] at hadd
      exact absurd hadd (by simp)
    · rw [if_neg hc] at hadd
      exact (Option.some.inj hadd).symm
  have hmap : ms'.map Movement.movement_id =
      ms.map Movement.movement_id ++ [next_movement_id ms] := by
    rw [hms']
    simp
  have hlt : ∀ i ∈ ms.map Movement.movement_id, i < next_movement_id ms := by
    intro i hi
    obtain ⟨m, hm, rfl⟩ := List.mem_map.1 hi
    exact movement_id_lt_next ms m hm
  have hpw : (ms'.map Movement.movement_id).Pairwise (· < ·) := by
    rw [hmap, List.pairwise_append]
    refine ⟨hsorted, by simp, ?_⟩
    intro i hi j hj
    have hj2 : j = next_movement_id ms := by simpa using hj
    subst hj2
    exact hlt i hi
  refine ⟨?_, ?_, hmap, hpw, hpw.imp (fun h => ne_of_lt h)⟩
  · intro h
    subst h
    decide
  · intro hne
    have hne2 : ms.map Movement.movement_id ≠ [] := by
      simpa using hne
    have hmax : next_movement_id ms - 1 = pyMax (ms.map Movement.movement_id) 0 := by
      unfold next_movement_id
      ring
    constructor
    · rw [hmax]
      exact pyMax_mem _ 0 hne2
    · intro i hi
      rw [hmax]
      exact mem_le_pyMax _ 0 i hi

/-- Witness for C3: appending to the non-contiguous ledger with ids 1 and 5
yields id 6, keeping the ids strictly increasing and unique. -/
theorem c3_witness :
    (fixture_ledger = [] → next_movement_id fixture_ledger = 1) ∧
    (fixture_ledger ≠ [] →
      next_movement_id fixture_ledger - 1 ∈
        fixture_ledger.map Movement.movement_id ∧
      ∀ i ∈ fixture_ledger.map Movement.movement_id,
        i ≤ next_movement_id fixture_ledger - 1) ∧
    fixture_appended.map Movement.movement_id =
      fixture_ledger.map Movement.movement_id ++
        [next_movement_id fixture_ledger] ∧
    (fixture_appended.map Movement.movement_id).Pairwise (· < ·) ∧
    (fixture_appended.map Movement.movement_id).Nodup :=
  c3_movement_id_assignment fixture_ledger fixture_appended ("t".toList)
    ("P".toList) ("L".toList) ("".toList) 2 (by decide) (by decide)

/-- C4: ledger append fails exactly when both location form fields strip to
empty (the failure path saves nothing, which the `none` result models), and
otherwise appends exactly one record carrying the next id, the timestamp, the
normalized locations, and the given product id and quantity. -/
theorem c4_add_movement_validity (ms : List Movement) (now p f t : Str)
    (q : Int) :
    (add_movement ms now p f t q = none ↔ pyStrip f = [] ∧ pyStrip t = []) ∧
    (¬(pyStrip f = [] ∧ pyStrip t = []) →
      add_movement ms now p f t q = some (ms ++
        [{ movement_id := next_movement_id ms, timestamp := now,
           from_location := norm_loc f, to_location := norm_loc t,
           product_id := p, qty := q }])) := by
  rw [add_movement_eq]
  by_cases h : pyStrip f = [] ∧ pyStrip t = []
  · rw [if_pos h]
    simp [h]
  · rw [if_neg h]
    simp [h]

/-- C5: registry add fails exactly when an existing record already carries the
(stripped) identifier, leaving the store unchanged (`none` saves nothing);
otherwise it appends the new record at the end; consequently any sequence of
adds with distinct stripped identifiers, starting from the empty store,
produces exactly those records in append order, identifiers preserved. -/
theorem c5_registry_add (ps : List Product) (ls : List Location)
    (pid n d lid n2 a : Str) :
    (add_product ps pid n d = none ↔ ∃ p ∈ ps, p.product_id = pyStrip pid) ∧
    ((∀ p ∈ ps, p.product_id ≠ pyStrip pid) →
      add_product ps pid n d = some (ps ++ [mk_product (pid, n, d)])) ∧
    (add_location ls lid n2 a = none ↔ ∃ l ∈ ls, l.location_id = pyStrip lid) ∧
    ((∀ l ∈ ls, l.location_id ≠ pyStrip lid) →
      add_location ls lid n2 a = some (ls ++ [mk_location (lid, n2, a)])) ∧
    (∀ is : List (Str × Str × Str), (is.map (fun i => pyStrip i.1)).Nodup →
      add_products_from [] is = some (is.map mk_product)) ∧
    (∀ is : List (Str × Str × Str), (is.map (fun i => pyStrip i.1)).Nodup →
      add_locations_from [] is = some (is.map mk_location)) := by
  refine ⟨add_product_none_iff ps pid n d, ?_,
    add_location_none_iff ls lid n2 a, ?_, ?_, ?_⟩
  · intro h
    exact add_product_success ps (pid, n, d) h
  · intro h
    exact add_location_success ls (lid, n2, a) h
  · intro is hnd
    have h := add_products_from_spec is [] hnd
      (fun i _ pr hpr => absurd hpr (List.not_mem_nil pr))
    simpa using h
  · intro is hnd
    have h := add_locations_from_spec is [] hnd
      (fun i _ lr hlr => absurd hlr (List.not_mem_nil lr))
    simpa using h

/-- C6: whenever the report succeeds, its rows are sorted ascending by the
pair (product_name, location_name) — product name primary, location name
secondary, case-sensitive code-point comparison. -/
theorem c6_report_sorted (ms : List Movement) (ps : List Product)
    (ls : List Location) (rows : List BalanceRow)
    (h : report ms ps ls = some rows) : List.Sorted row_le rows := by
  unfold report at h
  cases hrr : report_rows ps ls (computeBalance ms) with
  | none =>
    rw [hrr] at h
    exact absurd h (by simp)
  | some rows0 =>
    rw [hrr] at h
    have h2 : some (List.insertionSort row_le rows0) = some rows := h
    have h3 : List.insertionSort row_le rows0 = rows := Option.some.inj h2
    subst h3
    exact List.sorted_insertionSort row_le rows0

/-- Witness for C6: the example fixture's two rows come out sorted. -/
theorem c6_witness : List.Sorted row_le fixture_rows :=
  c6_report_sorted fixture_movements fixture_products fixture_locations
    fixture_rows (by decide)

/-- C7: registry update fails exactly when no record carries the identifier
(the failure path saves nothing); otherwise the store splits around the first
record with that identifier, only that record is replaced — its identifier
preserved, its mutable fields set to the stripped form fields — and every
record before and after it, and their order, is unchanged. -/
theorem c7_registry_update (ps : List Product) (ls : List Location)
    (pid n d lid n2 a : Str) :
    (edit_product ps pid n d = none ↔ ∀ p ∈ ps, p.product_id ≠ pid) ∧
    (∀ ps', edit_product ps pid n d = some ps' →
      ∃ pre p post, ps = pre ++ p :: post ∧ (∀ x ∈ pre, x.product_id ≠ pid) ∧
        p.product_id = pid ∧ ps' = pre ++ upd_product p n d :: post ∧
        (upd_product p n d).product_id = p.product_id) ∧
    (edit_location ls lid n2 a = none ↔ ∀ l ∈ ls, l.location_id ≠ lid) ∧
    (∀ ls', edit_location ls lid n2 a = some ls' →
      ∃ pre l post, ls = pre ++ l :: post ∧ (∀ x ∈ pre, x.location_id ≠ lid) ∧
        l.location_id = lid ∧ ls' = pre ++ upd_location l n2 a :: post ∧
        (upd_location l n2 a).location_id = l.location_id) := by
  refine ⟨edit_product_none_iff ps pid n d, ?_,
    edit_location_none_iff ls lid n2 a, ?_⟩
  · intro ps' h
    obtain ⟨pre, pr, post, h1, h2, h3, h4⟩ := edit_product_some ps pid n d ps' h
    exact ⟨pre, pr, post, h1, h2, h3, h4, rfl⟩
  · intro ls' h
    obtain ⟨pre, lr, post, h1, h2, h3, h4⟩ := edit_location_some ls lid n2 a ls' h
    exact ⟨pre, lr, post, h1, h2, h3, h4, rfl⟩

/-- C8: the flat-record store round-trips — loading a missing file gives the
empty sequence, and saving what was loaded reproduces an observably identical
sequence of records on every store state. -/
theorem c8_store_roundtrip (α : Type) (file : Option (List α)) :
    load_data (save_data (load_data file)) = load_data file ∧
    load_data (none : Option (List α)) = [] := by
  cases file with
  | none => exact ⟨rfl, rfl⟩
  | some records => exact ⟨rfl, rfl⟩

/-- C9: whitespace-only location form fields are treated as absent before the
validity check — two whitespace-only fields fail exactly like two omitted
ones — and a record appended by a successful request never stores an
empty-string or whitespace-only location. -/
theorem c9_whitespace_normalized (ms : List Movement) (now p f t : Str)
    (q : Int) :
    (ws_only f → ws_only t → add_movement ms now p f t q = none) ∧
    (∀ ms', add_movement ms now p f t q = some ms' →
      ∃ m, ms' = ms ++ [m] ∧
        (∀ lo, m.from_location = some lo → ¬ ws_only lo) ∧
        (∀ lo, m.to_location = some lo → ¬ ws_only lo)) := by
  constructor
  · intro hf ht
    rw [add_movement_eq,
      if_pos ⟨(pyStrip_eq_nil_iff f).2 hf, (pyStrip_eq_nil_iff t).2 ht⟩]
  · intro ms' h
    rw [add_movement_eq] at h
    by_cases hc : pyStrip f = [] ∧ pyStrip t = []
    · rw [if_pos hc] at h
      exact absurd h (by simp)
    · rw [if_neg hc] at h
      refine ⟨_, (Option.some.inj h).symm, ?_, ?_⟩
      · intro lo hlo
        have hlo' : norm_loc f = some lo := hlo
        unfold norm_loc at hlo'
        by_cases hs : pyStrip f = []
        · rw [if_pos hs] at hlo'
          exact absurd hlo' (by simp)
        · rw [if_neg hs] at hlo'
          have hlo2 : lo = pyStrip f := (Option.some.inj hlo').symm
          subst hlo2
          exact not_ws_only_pyStrip f hs
      · intro lo hlo
        have hlo' : norm_loc t = some lo := hlo
        unfold norm_loc at hlo'
        by_cases hs : pyStrip t = []
        · rw [if_pos hs] at hlo'
          exact absurd hlo' (by simp)
        · rw [if_neg hs] at hlo'
          have hlo2 : lo = pyStrip t := (Option.some.inj hlo').symm
          subst hlo2
          exact not_ws_only_pyStrip t hs

/-- C10: a movement whose from_location equals its to_location leaves every
key's balance unchanged (the debit and credit cancel), so a ledger consisting
only of such movements produces an empty balance report. -/
theorem c10_self_transfer (ms : List Movement) (ps : List Product)
    (ls : List Location) (H : ∀ m ∈ ms, m.from_location = m.to_location) :
    (∀ bal (m : Movement), m.from_location = m.to_location →
      ∀ k, dictGet (apply_movement bal m) k = dictGet bal k) ∧
    report ms ps ls = some [] := by
  refine ⟨fun bal m hm k => apply_movement_self bal m hm k, ?_⟩
  have hzero : ∀ e ∈ computeBalance ms, e.2 = 0 := by
    intro e he
    have h1 : e.2 = dictGet (computeBalance ms) e.1 :=
      mem_eq_dictGet _ e (nodup_keys_computeBalance ms) he
    rw [h1]
    have h2 := dictGet_foldl_self ms H [] e.1
    simpa [computeBalance, dictGet] using h2
  unfold report
  rw [report_rows_all_zero ps ls _ hzero]
  rfl

/-- Witness for C10: a single self-transfer of seven units produces an empty
report. -/
theorem c10_witness :
    (∀ bal (m : Movement), m.from_location = m.to_location →
      ∀ k, dictGet (apply_movement bal m) k = dictGet bal k) ∧
    report
      [{ movement_id := 1, timestamp := [], from_location := some ("L".toList),
         to_location := some ("L".toList), product_id := "P".toList, qty := 7 }]
      [] [] = some [] :=
  c10_self_transfer
    [{ movement_id := 1, timestamp := [], from_location := some ("L".toList),
       to_location := some ("L".toList), product_id := "P".toList, qty := 7 }]
    [] [] (by decide)

end InventoryPro
